import Mathlib

/-!
Verification of the recipe-management API core (multi-tenant recipes with
tag/ingredient reconciliation), shallowly embedded from `app/recipe/views.py`
and, where the repository ships only the views and tests, from the
specification of the serializer/model layer (reconciler, recipe service).

Entities are records; the store is explicit state threaded through each
operation; fallible operations return `Except ApiError`.
-/

/-- A named per-user sub-entity. Both Tag and Ingredient have this exact
shape: { id, owner_user_id, name } (the spec states Ingredient is "same shape
and lifecycle rules as Tag, independent namespace"). -/
structure NamedEntity where
  id : Nat
  user : Nat
  name : String
deriving DecidableEq, Repr

/-- A Recipe row together with its two association sets, held as lists of
entity ids (`recipe_tag` / `recipe_ingredient` association rows). -/
structure Recipe where
  id : Nat
  user : Nat
  title : String
  time_minutes : Nat
  price : Int
  description : String
  link : String
  tags : List Nat
  ingredients : List Nat
deriving DecidableEq, Repr

/-- The entity store: the recipe, tag and ingredient tables plus the id
generator (ids are generated and stable). -/
structure Store where
  recipes : List Recipe
  tags : List NamedEntity
  ingredients : List NamedEntity
  nextId : Nat
deriving DecidableEq, Repr

/-- Error taxonomy of the spec: 401 / 404 / 400. -/
inductive ApiError where
  | unauthenticated
  | notFound
  | validationError
deriving DecidableEq, Repr

/-- Maximum name length enforced by the store (Django `CharField
(max_length=255)` on Tag/Ingredient names). -/
def NAME_MAX_LENGTH : Nat := 255

/-- A sub-entity name is valid when nonempty and within the store's length
limit. -/
def validName (n : String) : Bool :=
  n.length != 0 && n.length ≤ NAME_MAX_LENGTH

/-- Case-sensitive exact-match lookup of an entity owned by `u` named `n`. -/
def findByName (l : List NamedEntity) (u : Nat) (n : String) : Option NamedEntity :=
  l.find? (fun t => t.user == u && t.name == n)

/-- Insert an id into a set of ids (duplicates collapsed, target is a set). -/
def insertIdSet (i : Nat) (ids : List Nat) : List Nat :=
  if i ∈ ids then ids else i :: ids

/-- Modelled from the spec: the Reconciler `resolve(user, kind, name_list)`
of §4.2 (the repository's serializer layer implementing it is not among the
provided sources). For each name in order: find an existing entity owned by
`u` with that exact name and reuse its id, otherwise create a fresh entity
owned by `u` (persisted immediately, so later duplicate names see it);
reject empty or over-long names with a ValidationError. Returns the id set
(one per distinct name), the updated entity table and id generator. -/
def resolveNames (u : Nat) : List String → List NamedEntity → Nat →
    Except ApiError (List Nat × List NamedEntity × Nat)
  | [], l, nid => .ok ([], l, nid)
  | n :: rest, l, nid =>
    if validName n = true then
      match findByName l u n with
      | some t =>
        match resolveNames u rest l nid with
        | .error e => .error e
        | .ok (ids, l', nid') => .ok (insertIdSet t.id ids, l', nid')
      | none =>
        match resolveNames u rest (l ++ [⟨nid, u, n⟩]) (nid + 1) with
        | .error e => .error e
        | .ok (ids, l', nid') => .ok (insertIdSet nid ids, l', nid')
    else .error .validationError

example : resolveNames 1 ["vegan", "dessert"] [] 5 =
    .ok ([5, 6], [⟨5, 1, "vegan"⟩, ⟨6, 1, "dessert"⟩], 7) := by rfl

example : resolveNames 1 ["vegan"] [⟨3, 1, "vegan"⟩] 5 =
    .ok ([3], [⟨3, 1, "vegan"⟩], 5) := by rfl

example : resolveNames 1 ["vegan", "vegan"] [] 5 =
    .ok ([5], [⟨5, 1, "vegan"⟩], 6) := by rfl

example : resolveNames 1 [""] [] 5 = .error .validationError := by rfl

/-- Payload for Recipe creation. `user` models an owner value smuggled into
the create payload; `perform_create` in `views.py` saves with
`user=self.request.user`, so it is never honoured. `tags`/`ingredients`
are optional name lists (absent key = `none`). -/
structure RecipeFields where
  title : String
  time_minutes : Nat
  price : Int
  description : String
  link : String
  user : Option Nat
  tags : Option (List String)
  ingredients : Option (List String)
deriving DecidableEq, Repr

/-- Payload for partial or full update: every field optional; an absent key
is `none`. `user` models an attempted owner reassignment, never applied. -/
structure UpdatePayload where
  title : Option String
  time_minutes : Option Nat
  price : Option Int
  description : Option String
  link : Option String
  user : Option Nat
  tags : Option (List String)
  ingredients : Option (List String)
deriving DecidableEq, Repr

/-- Field-level validation for Recipe creation: title required and within
the store length limit, price non-negative (time_minutes is a `Nat`). -/
def validRecipeFields (f : RecipeFields) : Bool :=
  f.title.length != 0 && f.title.length ≤ NAME_MAX_LENGTH && decide (0 ≤ f.price)

/-- Apply exactly the scalar fields present in the payload, keeping every
omitted field (id, owner and association sets handled by the caller; the
`user` field of the payload is deliberately never applied). -/
def applyFields (r : Recipe) (p : UpdatePayload) : Recipe :=
  { r with
    title := p.title.getD r.title
    time_minutes := p.time_minutes.getD r.time_minutes
    price := p.price.getD r.price
    description := p.description.getD r.description
    link := p.link.getD r.link }

/-- Look a recipe up by id in the whole table (no ownership scoping). -/
def findRecipe (s : Store) (rid : Nat) : Option Recipe :=
  s.recipes.find? (fun r => r.id == rid)

/-- Ownership Filter `scoped_get`: `get_queryset` in `views.py` filters the
queryset by `user=self.request.user`, and detail lookup then searches only
that filtered set — an id owned by someone else is simply absent. -/
def scoped_get (s : Store) (u : Nat) (rid : Nat) : Option Recipe :=
  (s.recipes.filter (fun r => r.user == u)).find? (fun r => r.id == rid)

/-- Modelled from the spec: Recipe Service `create(user, fields)` of §4.3
(the serializer layer is not among the provided sources; `perform_create`
in `views.py` supplies `user=self.request.user`). Validates the scalar
fields, resolves both name lists through the Reconciler (empty when the
key is absent), and persists the new Recipe owned by the authenticated
user — any `user` value in the payload is ignored. -/
def createRecipeOp (u : Nat) (f : RecipeFields) (s : Store) :
    Except ApiError (Nat × Store) :=
  if validRecipeFields f = true then
    match resolveNames u (f.tags.getD []) s.tags s.nextId with
    | .error e => .error e
    | .ok (tids, tags', nid1) =>
      match resolveNames u (f.ingredients.getD []) s.ingredients nid1 with
      | .error e => .error e
      | .ok (iids, ings', nid2) =>
        let r : Recipe :=
          { id := nid2, user := u, title := f.title,
            time_minutes := f.time_minutes, price := f.price,
            description := f.description, link := f.link,
            tags := tids, ingredients := iids }
        .ok (nid2, { recipes := s.recipes ++ [r], tags := tags',
                     ingredients := ings', nextId := nid2 + 1 })
  else .error .validationError

/-- Modelled from the spec: Recipe Service `update(user, recipe_id, fields)`
of §4.3 (the serializer layer is not among the provided sources). Uses
`scoped_get` (NotFound on absent or foreign-owned), applies only the fields
present in the payload, and when a `tags`/`ingredients` key is present
replaces that association set wholesale with the Reconciler's result; the
payload's `user` field is never applied. -/
def updateRecipeOp (u : Nat) (rid : Nat) (p : UpdatePayload) (s : Store) :
    Except ApiError Store :=
  match scoped_get s u rid with
  | none => .error .notFound
  | some r =>
    match (match p.tags with
           | none => Except.ok (r.tags, s.tags, s.nextId)
           | some names => resolveNames u names s.tags s.nextId) with
    | .error e => .error e
    | .ok (tids, tags', nid1) =>
      match (match p.ingredients with
             | none => Except.ok (r.ingredients, s.ingredients, nid1)
             | some names => resolveNames u names s.ingredients nid1) with
      | .error e => .error e
      | .ok (iids, ings', nid2) =>
        let r' : Recipe := { applyFields r p with tags := tids, ingredients := iids }
        .ok { recipes := s.recipes.map (fun x => if x.id == rid then r' else x),
              tags := tags', ingredients := ings', nextId := nid2 }

/-- Recipe Service `delete(user, recipe_id)`: `scoped_get`, then remove the
Recipe row (its association rows live inside it; Tag/Ingredient entities
are untouched). -/
def deleteRecipeOp (u : Nat) (rid : Nat) (s : Store) : Except ApiError Store :=
  match scoped_get s u rid with
  | none => .error .notFound
  | some _ =>
    .ok { recipes := s.recipes.filter (fun r => !(r.id == rid)),
          tags := s.tags, ingredients := s.ingredients, nextId := s.nextId }

/-- Ownership-scoped lookup of a tag/ingredient by id, as `get_queryset` of
`BaseRecipeAttrViewSet` filters by user before detail lookup. -/
def scopedFindEnt (l : List NamedEntity) (u : Nat) (eid : Nat) : Option NamedEntity :=
  (l.filter (fun t => t.user == u)).find? (fun t => t.id == eid)

/-- Direct creation of a tag/ingredient through its own endpoint
(`perform_create` saves with the authenticated user as owner). -/
def createEnt (u : Nat) (n : String) (l : List NamedEntity) (nid : Nat) :
    Except ApiError (List NamedEntity × Nat) :=
  if validName n = true then .ok (l ++ [⟨nid, u, n⟩], nid + 1)
  else .error .validationError

/-- Rename a tag/ingredient through its own endpoint; scoped lookup first. -/
def renameEnt (u : Nat) (eid : Nat) (n : String) (l : List NamedEntity) :
    Except ApiError (List NamedEntity) :=
  match scopedFindEnt l u eid with
  | none => .error .notFound
  | some _ =>
    if validName n = true then
      .ok (l.map (fun t => if t.id == eid then ⟨t.id, t.user, n⟩ else t))
    else .error .validationError

/-- Remove a tag/ingredient row through its own endpoint; scoped lookup
first (association rows referencing it are cascaded by the caller). -/
def deleteEnt (u : Nat) (eid : Nat) (l : List NamedEntity) :
    Except ApiError (List NamedEntity) :=
  match scopedFindEnt l u eid with
  | none => .error .notFound
  | some _ => .ok (l.filter (fun t => !(t.id == eid)))

/-- Ownership Filter `scoped_list` for recipes, from `RecipeViewSet
.get_queryset`: `filter(user=request.user).order_by(-id)` — own recipes
only, most-recently-created (largest id) first. -/
def scoped_list_recipes (s : Store) (u : Nat) : List Recipe :=
  (s.recipes.filter (fun r => r.user == u)).mergeSort
    (fun a b => Nat.ble b.id a.id)

/-- Ownership Filter `scoped_list` for tags/ingredients, from
`BaseRecipeAttrViewSet.get_queryset`: `filter(user=request.user)
.order_by(-name)` — own entities only, reverse-lexicographic by name. -/
def scoped_list_ents (l : List NamedEntity) (u : Nat) : List NamedEntity :=
  (l.filter (fun t => t.user == u)).mergeSort
    (fun a b => decide (b.name ≤ a.name))

/-- HTTP status of a response (payload bodies are not modelled). -/
inductive Response where
  | ok200
  | created201
  | noContent204
  | badRequest400
  | unauthorized401
  | notFound404
deriving DecidableEq, Repr

/-- A request to one of the API endpoints, carrying its parsed payload. -/
inductive Request where
  | listRecipes
  | getRecipe (rid : Nat)
  | postRecipe (f : RecipeFields)
  | patchRecipe (rid : Nat) (p : UpdatePayload)
  | putRecipe (rid : Nat) (p : UpdatePayload)
  | delRecipe (rid : Nat)
  | listTags
  | postTag (n : String)
  | patchTag (eid : Nat) (n : String)
  | delTag (eid : Nat)
  | listIngredients
  | postIngredient (n : String)
  | patchIngredient (eid : Nat) (n : String)
  | delIngredient (eid : Nat)
deriving DecidableEq, Repr

/-- Map a service-layer error to its status code (§7 taxonomy). -/
def ApiError.status : ApiError → Response
  | .unauthenticated => .unauthorized401
  | .notFound => .notFound404
  | .validationError => .badRequest400

/-- The API surface: every viewset in `views.py` sets
`permission_classes = [IsAuthenticated]`, so a request without a valid
credential is answered 401 before any handler runs and before any
ownership check; an authenticated request is dispatched to the scoped
operation. Each mutating operation is one atomic transaction (§5): on any
error the store returned is exactly the store received. Deleting a
tag/ingredient cascades over the recipes' association rows. -/
def handle (auth : Option Nat) (req : Request) (s : Store) : Response × Store :=
  match auth with
  | none => (.unauthorized401, s)
  | some u =>
    match req with
    | .listRecipes => (.ok200, s)
    | .getRecipe rid =>
      match scoped_get s u rid with
      | some _ => (.ok200, s)
      | none => (.notFound404, s)
    | .postRecipe f =>
      match createRecipeOp u f s with
      | .ok (_, s') => (.created201, s')
      | .error e => (e.status, s)
    | .patchRecipe rid p =>
      match updateRecipeOp u rid p s with
      | .ok s' => (.ok200, s')
      | .error e => (e.status, s)
    | .putRecipe rid p =>
      match updateRecipeOp u rid p s with
      | .ok s' => (.ok200, s')
      | .error e => (e.status, s)
    | .delRecipe rid =>
      match deleteRecipeOp u rid s with
      | .ok s' => (.noContent204, s')
      | .error e => (e.status, s)
    | .listTags => (.ok200, s)
    | .postTag n =>
      match createEnt u n s.tags s.nextId with
      | .ok (l', nid') => (.created201, { s with tags := l', nextId := nid' })
      | .error e => (e.status, s)
    | .patchTag eid n =>
      match renameEnt u eid n s.tags with
      | .ok l' => (.ok200, { s with tags := l' })
      | .error e => (e.status, s)
    | .delTag eid =>
      match deleteEnt u eid s.tags with
      | .ok l' =>
        (.noContent204,
         { s with tags := l',
                  recipes := s.recipes.map
                    (fun r => { r with tags := r.tags.filter (fun i => !(i == eid)) }) })
      | .error e => (e.status, s)
    | .listIngredients => (.ok200, s)
    | .postIngredient n =>
      match createEnt u n s.ingredients s.nextId with
      | .ok (l', nid') => (.created201, { s with ingredients := l', nextId := nid' })
      | .error e => (e.status, s)
    | .patchIngredient eid n =>
      match renameEnt u eid n s.ingredients with
      | .ok l' => (.ok200, { s with ingredients := l' })
      | .error e => (e.status, s)
    | .delIngredient eid =>
      match deleteEnt u eid s.ingredients with
      | .ok l' =>
        (.noContent204,
         { s with ingredients := l',
                  recipes := s.recipes.map
                    (fun r => { r with ingredients := r.ingredients.filter (fun i => !(i == eid)) }) })
      | .error e => (e.status, s)

/-- Well-formedness of an entity table relative to the id generator: every
id already allocated and no two rows sharing an id. -/
abbrev EntsWf (l : List NamedEntity) (nid : Nat) : Prop :=
  (∀ t ∈ l, t.id < nid) ∧ (l.map (fun t => t.id)).Nodup

/-- Store invariant maintained by the id generator: all recipe, tag and
ingredient ids are below `nextId`, each table has pairwise-distinct ids,
and every association id was allocated. -/
abbrev Store.Wf (s : Store) : Prop :=
  (∀ r ∈ s.recipes, r.id < s.nextId) ∧
  (s.recipes.map (fun r => r.id)).Nodup ∧
  EntsWf s.tags s.nextId ∧ EntsWf s.ingredients s.nextId ∧
  (∀ r ∈ s.recipes, (∀ i ∈ r.tags, i < s.nextId) ∧ (∀ i ∈ r.ingredients, i < s.nextId))

/-- The operations a viewset supports, named after the framework's action
vocabulary (`patchAction` standing for the PATCH action). -/
inductive ViewAction where
  | listAction
  | createAction
  | retrieveAction
  | updateAction
  | patchAction
  | destroyAction
deriving DecidableEq, Repr

/-- Actions contributed by `mixins.UpdateModelMixin` (PUT and PATCH). -/
def UpdateModelMixin.actions : List ViewAction := [.updateAction, .patchAction]

/-- Actions contributed by `mixins.DestroyModelMixin`. -/
def DestroyModelMixin.actions : List ViewAction := [.destroyAction]

/-- Actions contributed by `mixins.ListModelMixin`. -/
def ListModelMixin.actions : List ViewAction := [.listAction]

/-- Actions contributed by `mixins.CreateModelMixin`. -/
def CreateModelMixin.actions : List ViewAction := [.createAction]

/-- Actions contributed by `mixins.RetrieveModelMixin` (detail GET) — not
among the mixins `BaseRecipeAttrViewSet` composes. -/
def RetrieveModelMixin.actions : List ViewAction := [.retrieveAction]

/-- The `GenericViewSet` base contributes no actions of its own. -/
def GenericViewSet.actions : List ViewAction := []

/-- The mixin composition of `BaseRecipeAttrViewSet` in `views.py`:
Update, Destroy, List and Create mixins over `GenericViewSet`. -/
def BaseRecipeAttrViewSet.actions : List ViewAction :=
  UpdateModelMixin.actions ++ DestroyModelMixin.actions ++
  ListModelMixin.actions ++ CreateModelMixin.actions ++ GenericViewSet.actions

/-- The `TagViewSet` inherits its capabilities from `BaseRecipeAttrViewSet`. -/
def TagViewSet.actions : List ViewAction := BaseRecipeAttrViewSet.actions

/-- The `IngredientViewSet` inherits its capabilities from
`BaseRecipeAttrViewSet`. -/
def IngredientViewSet.actions : List ViewAction := BaseRecipeAttrViewSet.actions

/-- The full `ModelViewSet` used for recipes supports every action,
including detail retrieve. -/
def RecipeViewSet.actions : List ViewAction :=
  [.listAction, .createAction, .retrieveAction, .updateAction,
   .patchAction, .destroyAction]

/-! Lemmas about name lookup. -/

/-- A lookup misses exactly when no row matches owner and name. -/
theorem findByName_eq_none_iff (l : List NamedEntity) (u : Nat) (n : String) :
    findByName l u n = none ↔ ∀ t ∈ l, ¬(t.user = u ∧ t.name = n) := by
  simp [findByName, List.find?_eq_none]

/-- A hit returns a row of the table matching owner and name. -/
theorem findByName_eq_some (l : List NamedEntity) (u : Nat) (n : String)
    (t : NamedEntity) (h : findByName l u n = some t) :
    t ∈ l ∧ t.user = u ∧ t.name = n := by
  refine ⟨List.mem_of_find?_eq_some h, ?_⟩
  have hp := List.find?_some h
  simpa using hp

/-- Appending rows to the table cannot change an existing hit. -/
theorem findByName_append_some (l l₂ : List NamedEntity) (u : Nat) (n : String)
    (t : NamedEntity) (h : findByName l u n = some t) :
    findByName (l ++ l₂) u n = some t := by
  unfold findByName at h ⊢
  rw [List.find?_append, h]; simp

/-- After a miss, lookup in an extended table searches the extension. -/
theorem findByName_append_none (l l₂ : List NamedEntity) (u : Nat) (n : String)
    (h : findByName l u n = none) :
    findByName (l ++ l₂) u n = findByName l₂ u n := by
  unfold findByName at h ⊢
  rw [List.find?_append, h]; simp

/-- A freshly created row is found by its own name. -/
theorem findByName_singleton (i : Nat) (u : Nat) (n : String) :
    findByName [⟨i, u, n⟩] u n = some ⟨i, u, n⟩ := by
  simp [findByName, List.find?]

/-- Missing in a table extended by one fresh row of owner `u` and name `n`
is missing before and having a different name. -/
theorem findByName_append_singleton_isNone (l : List NamedEntity)
    (u i : Nat) (n m : String) :
    (findByName (l ++ [⟨i, u, n⟩]) u m).isNone =
      ((findByName l u m).isNone && !(m == n)) := by
  cases h : findByName l u m with
  | some t => rw [findByName_append_some l _ u m t h]; rfl
  | none =>
    rw [findByName_append_none l _ u m h]
    by_cases hmn : m = n
    · subst hmn; rw [findByName_singleton]; simp
    · have hb : (n == m) = false := by
        simp only [beq_eq_false_iff_ne]
        exact fun h' => hmn h'.symm
      have h2 : findByName [⟨i, u, n⟩] u m = none := by
        simp [findByName, List.find?, hb]
      rw [h2]
      simp [hmn]

/-! Lemmas about the id-set insertion. -/

/-- Membership after an insertion. -/
theorem mem_insertIdSet (i j : Nat) (ids : List Nat) :
    i ∈ insertIdSet j ids ↔ i = j ∨ i ∈ ids := by
  unfold insertIdSet
  by_cases h : j ∈ ids
  · simp only [if_pos h]
    constructor
    · exact Or.inr
    · rintro (rfl | hm)
      · exact h
      · exact hm
  · simp [if_neg h]

/-- Insertion preserves distinctness. -/
theorem nodup_insertIdSet (j : Nat) (ids : List Nat) (h : ids.Nodup) :
    (insertIdSet j ids).Nodup := by
  unfold insertIdSet
  by_cases hj : j ∈ ids
  · simpa [if_pos hj]
  · simp only [if_neg hj]
    exact List.nodup_cons.mpr ⟨hj, h⟩

/-- Inserting a present id keeps the length. -/
theorem length_insertIdSet_mem (j : Nat) (ids : List Nat) (h : j ∈ ids) :
    (insertIdSet j ids).length = ids.length := by
  simp [insertIdSet, if_pos h]

/-- Inserting an absent id grows the length by one. -/
theorem length_insertIdSet_not_mem (j : Nat) (ids : List Nat) (h : j ∉ ids) :
    (insertIdSet j ids).length = ids.length + 1 := by
  simp [insertIdSet, if_neg h]

/-- Lookup hitting in a prefix of the table still hits in the whole table,
contrapositively: a miss in the whole table is a miss in the prefix. -/
theorem findByName_append_none_left (l l₂ : List NamedEntity) (u : Nat)
    (n : String) (h : findByName (l ++ l₂) u n = none) :
    findByName l u n = none := by
  cases hf : findByName l u n with
  | none => rfl
  | some t => rw [findByName_append_some l l₂ u n t hf] at h; cases h

/-- Unfolding equation of the reconciler at a non-empty list. -/
theorem resolveNames_cons (u : Nat) (n : String) (rest : List String)
    (l : List NamedEntity) (nid : Nat) :
    resolveNames u (n :: rest) l nid =
      if validName n = true then
        match findByName l u n with
        | some t =>
          match resolveNames u rest l nid with
          | .error e => .error e
          | .ok (ids, l', nid') => .ok (insertIdSet t.id ids, l', nid')
        | none =>
          match resolveNames u rest (l ++ [⟨nid, u, n⟩]) (nid + 1) with
          | .error e => .error e
          | .ok (ids, l', nid') => .ok (insertIdSet nid ids, l', nid')
      else .error .validationError := rfl

/-- Extending a well-formed table with a fresh row keeps it well-formed
against the bumped id generator. -/
theorem entswf_append_fresh (l : List NamedEntity) (nid : Nat) (u : Nat)
    (n : String) (hwf : EntsWf l nid) :
    EntsWf (l ++ [⟨nid, u, n⟩]) (nid + 1) := by
  obtain ⟨hlt, hnd⟩ := hwf
  constructor
  · intro t ht
    rcases List.mem_append.mp ht with h | h
    · exact Nat.lt_succ_of_lt (hlt t h)
    · simp at h; subst h; exact Nat.lt_succ_self nid
  · rw [List.map_append, List.nodup_append]
    refine ⟨hnd, by simp, ?_⟩
    intro i hi hj
    simp only [List.map_cons, List.map_nil, List.mem_singleton] at hj
    rcases List.mem_map.mp hi with ⟨t, htl, hti⟩
    have hlt2 : i < nid := hti ▸ hlt t htl
    omega

/-- The reconciler only ever fails with a validation error. -/
theorem resolveNames_error_eq (u : Nat) (names : List String)
    (l : List NamedEntity) (nid : Nat) (e : ApiError)
    (h : resolveNames u names l nid = .error e) : e = .validationError := by
  induction names generalizing l nid with
  | nil => simp [resolveNames] at h
  | cons n rest ih =>
    by_cases hv : validName n = true
    · cases hf : findByName l u n with
      | some t =>
        cases hr : resolveNames u rest l nid with
        | error e' =>
          simp [resolveNames_cons, hv, hf, hr] at h
          exact ih l nid (h ▸ hr)
        | ok res =>
          obtain ⟨ids₁, l₁, nid₁⟩ := res
          simp [resolveNames_cons, hv, hf, hr] at h
      | none =>
        cases hr : resolveNames u rest (l ++ [⟨nid, u, n⟩]) (nid + 1) with
        | error e' =>
          simp [resolveNames_cons, hv, hf, hr] at h
          exact ih _ _ (h ▸ hr)
        | ok res =>
          obtain ⟨ids₁, l₁, nid₁⟩ := res
          simp [resolveNames_cons, hv, hf, hr] at h
    · simp [resolveNames_cons, hv] at h
      exact h.symm

/-- An empty or over-long name anywhere in the list makes the whole
reconciliation fail with a validation error. -/
theorem resolveNames_invalid (u : Nat) (names : List String)
    (l : List NamedEntity) (nid : Nat)
    (h : ∃ n ∈ names, validName n = false) :
    resolveNames u names l nid = .error .validationError := by
  induction names generalizing l nid with
  | nil => obtain ⟨n, hn, _⟩ := h; cases hn
  | cons n rest ih =>
    obtain ⟨m, hm, hmv⟩ := h
    rcases List.mem_cons.mp hm with rfl | hm'
    · simp [resolveNames_cons, hmv]
    · by_cases hv : validName n = true
      · cases hf : findByName l u n with
        | some t => simp [resolveNames_cons, hv, hf, ih l nid ⟨m, hm', hmv⟩]
        | none => simp [resolveNames_cons, hv, hf, ih (l ++ [⟨nid, u, n⟩]) (nid + 1) ⟨m, hm', hmv⟩]
      · simp [resolveNames_cons, hv]

/-- When every submitted name is valid, reconciliation succeeds. -/
theorem resolveNames_ok_of_valid (u : Nat) (names : List String)
    (l : List NamedEntity) (nid : Nat)
    (hval : ∀ n ∈ names, validName n = true) :
    ∃ ids l' nid', resolveNames u names l nid = .ok (ids, l', nid') := by
  induction names generalizing l nid with
  | nil => exact ⟨[], l, nid, rfl⟩
  | cons n rest ih =>
    have hv : validName n = true := hval n (List.mem_cons_self n rest)
    have hval' : ∀ m ∈ rest, validName m = true :=
      fun m hm => hval m (List.mem_cons_of_mem n hm)
    cases hf : findByName l u n with
    | some t =>
      obtain ⟨ids₁, l₁, nid₁, hr⟩ := ih l nid hval'
      exact ⟨insertIdSet t.id ids₁, l₁, nid₁, by simp [resolveNames_cons, hv, hf, hr]⟩
    | none =>
      obtain ⟨ids₁, l₁, nid₁, hr⟩ := ih (l ++ [⟨nid, u, n⟩]) (nid + 1) hval'
      exact ⟨insertIdSet nid ids₁, l₁, nid₁, by simp [resolveNames_cons, hv, hf, hr]⟩

/-- Reconciliation only appends rows: the resulting table extends the
input table by freshly created rows, each owned by the reconciling user,
named by a submitted name that previously missed, with an id allocated
from the generator. -/
theorem resolveNames_shape (u : Nat) (names : List String)
    (l : List NamedEntity) (nid : Nat) (ids : List Nat)
    (l' : List NamedEntity) (nid' : Nat)
    (h : resolveNames u names l nid = .ok (ids, l', nid')) :
    ∃ new, l' = l ++ new ∧ nid' = nid + new.length ∧
      ∀ t ∈ new, t.user = u ∧ t.name ∈ names ∧
        findByName l u t.name = none ∧ nid ≤ t.id ∧ t.id < nid' := by
  induction names generalizing l nid ids l' nid' with
  | nil =>
    simp [resolveNames] at h
    rcases h with ⟨h1, h2, h3⟩
    refine ⟨[], by simp [h2], by simp [h3], by simp⟩
  | cons n rest ih =>
    by_cases hv : validName n = true
    · cases hf : findByName l u n with
      | some t =>
        cases hr : resolveNames u rest l nid with
        | error e => simp [resolveNames_cons, hv, hf, hr] at h
        | ok res =>
          obtain ⟨ids₁, l₁, nid₁⟩ := res
          simp [resolveNames_cons, hv, hf, hr] at h
          obtain ⟨hids, hl, hnid⟩ := h
          subst hl hnid
          obtain ⟨new, hnew, hcnt, hprop⟩ := ih l nid ids₁ l₁ nid₁ hr
          refine ⟨new, hnew, hcnt, ?_⟩
          intro t' ht'
          obtain ⟨h1, h2, h3, h4, h5⟩ := hprop t' ht'
          exact ⟨h1, List.mem_cons_of_mem n h2, h3, h4, h5⟩
      | none =>
        cases hr : resolveNames u rest (l ++ [⟨nid, u, n⟩]) (nid + 1) with
        | error e => simp [resolveNames_cons, hv, hf, hr] at h
        | ok res =>
          obtain ⟨ids₁, l₁, nid₁⟩ := res
          simp [resolveNames_cons, hv, hf, hr] at h
          obtain ⟨hids, hl, hnid⟩ := h
          subst hl hnid
          obtain ⟨new₁, hnew, hcnt, hprop⟩ := ih _ _ _ _ _ hr
          refine ⟨⟨nid, u, n⟩ :: new₁, by simp [hnew], by simp; omega, ?_⟩
          intro t' ht'
          rcases List.mem_cons.mp ht' with rfl | hm
          · exact ⟨rfl, List.mem_cons_self n rest, hf, Nat.le_refl nid, by simp; omega⟩
          · obtain ⟨h1, h2, h3, h4, h5⟩ := hprop t' hm
            exact ⟨h1, List.mem_cons_of_mem n h2,
                   findByName_append_none_left l _ u t'.name h3, by omega, h5⟩
    · simp [resolveNames_cons, hv] at h

/-- Reconciliation keeps the entity table well-formed. -/
theorem resolveNames_wf (u : Nat) (names : List String)
    (l : List NamedEntity) (nid : Nat) (ids : List Nat)
    (l' : List NamedEntity) (nid' : Nat) (hwf : EntsWf l nid)
    (h : resolveNames u names l nid = .ok (ids, l', nid')) :
    EntsWf l' nid' := by
  induction names generalizing l nid ids l' nid' with
  | nil =>
    simp [resolveNames] at h
    rcases h with ⟨h1, h2, h3⟩
    rw [← h2, ← h3]
    exact hwf
  | cons n rest ih =>
    by_cases hv : validName n = true
    · cases hf : findByName l u n with
      | some t =>
        cases hr : resolveNames u rest l nid with
        | error e => simp [resolveNames_cons, hv, hf, hr] at h
        | ok res =>
          obtain ⟨ids₁, l₁, nid₁⟩ := res
          simp [resolveNames_cons, hv, hf, hr] at h
          obtain ⟨hids, hl, hnid⟩ := h
          subst hl hnid
          exact ih l nid ids₁ l₁ nid₁ hwf hr
      | none =>
        cases hr : resolveNames u rest (l ++ [⟨nid, u, n⟩]) (nid + 1) with
        | error e => simp [resolveNames_cons, hv, hf, hr] at h
        | ok res =>
          obtain ⟨ids₁, l₁, nid₁⟩ := res
          simp [resolveNames_cons, hv, hf, hr] at h
          obtain ⟨hids, hl, hnid⟩ := h
          subst hl hnid
          exact ih _ _ _ _ _ (entswf_append_fresh l nid u n hwf) hr
    · simp [resolveNames_cons, hv] at h

/-- The resolved id set has no duplicates. -/
theorem resolveNames_ids_nodup (u : Nat) (names : List String)
    (l : List NamedEntity) (nid : Nat) (ids : List Nat)
    (l' : List NamedEntity) (nid' : Nat)
    (h : resolveNames u names l nid = .ok (ids, l', nid')) :
    ids.Nodup := by
  induction names generalizing l nid ids l' nid' with
  | nil =>
    simp [resolveNames] at h
    rcases h with ⟨h1, h2, h3⟩
    rw [h1]
    exact List.nodup_nil
  | cons n rest ih =>
    by_cases hv : validName n = true
    · cases hf : findByName l u n with
      | some t =>
        cases hr : resolveNames u rest l nid with
        | error e => simp [resolveNames_cons, hv, hf, hr] at h
        | ok res =>
          obtain ⟨ids₁, l₁, nid₁⟩ := res
          simp [resolveNames_cons, hv, hf, hr] at h
          obtain ⟨hids, hl, hnid⟩ := h
          rw [← hids]
          exact nodup_insertIdSet t.id ids₁ (ih l nid ids₁ l₁ nid₁ hr)
      | none =>
        cases hr : resolveNames u rest (l ++ [⟨nid, u, n⟩]) (nid + 1) with
        | error e => simp [resolveNames_cons, hv, hf, hr] at h
        | ok res =>
          obtain ⟨ids₁, l₁, nid₁⟩ := res
          simp [resolveNames_cons, hv, hf, hr] at h
          obtain ⟨hids, hl, hnid⟩ := h
          rw [← hids]
          exact nodup_insertIdSet nid ids₁ (ih _ _ _ _ _ hr)
    · simp [resolveNames_cons, hv] at h

/-- Every resolved id references a row of the resulting table owned by the
reconciling user and named by one of the submitted names. -/
theorem resolveNames_ids_sub (u : Nat) (names : List String)
    (l : List NamedEntity) (nid : Nat) (ids : List Nat)
    (l' : List NamedEntity) (nid' : Nat)
    (h : resolveNames u names l nid = .ok (ids, l', nid')) :
    ∀ i ∈ ids, ∃ t, t ∈ l' ∧ t.id = i ∧ t.user = u ∧ t.name ∈ names := by
  induction names generalizing l nid ids l' nid' with
  | nil =>
    simp [resolveNames] at h
    rcases h with ⟨h1, h2, h3⟩
    intro i hi
    rw [h1] at hi
    cases hi
  | cons n rest ih =>
    by_cases hv : validName n = true
    · cases hf : findByName l u n with
      | some t =>
        cases hr : resolveNames u rest l nid with
        | error e => simp [resolveNames_cons, hv, hf, hr] at h
        | ok res =>
          obtain ⟨ids₁, l₁, nid₁⟩ := res
          simp [resolveNames_cons, hv, hf, hr] at h
          obtain ⟨hids, hl, hnid⟩ := h
          subst hl hnid
          intro i hi
          rw [← hids] at hi
          rcases (mem_insertIdSet i t.id ids₁).mp hi with heq | hi₁
          · obtain ⟨htl, htu, htn⟩ := findByName_eq_some l u n t hf
            obtain ⟨new, hnew, -, -⟩ := resolveNames_shape u rest l nid ids₁ l₁ nid₁ hr
            exact ⟨t, by rw [hnew]; exact List.mem_append_left new htl,
                   heq.symm, htu, htn ▸ List.mem_cons_self n rest⟩
          · obtain ⟨t₂, h1, h2, h3, h4⟩ := ih l nid ids₁ l₁ nid₁ hr i hi₁
            exact ⟨t₂, h1, h2, h3, List.mem_cons_of_mem n h4⟩
      | none =>
        cases hr : resolveNames u rest (l ++ [⟨nid, u, n⟩]) (nid + 1) with
        | error e => simp [resolveNames_cons, hv, hf, hr] at h
        | ok res =>
          obtain ⟨ids₁, l₁, nid₁⟩ := res
          simp [resolveNames_cons, hv, hf, hr] at h
          obtain ⟨hids, hl, hnid⟩ := h
          subst hl hnid
          intro i hi
          rw [← hids] at hi
          rcases (mem_insertIdSet i nid ids₁).mp hi with heq | hi₁
          · obtain ⟨new₁, hnew, -, -⟩ := resolveNames_shape u rest _ _ ids₁ l₁ nid₁ hr
            refine ⟨⟨nid, u, n⟩, ?_, heq.symm, rfl, List.mem_cons_self n rest⟩
            rw [hnew]
            exact List.mem_append_left new₁ (List.mem_append_right l (by simp))
          · obtain ⟨t₂, h1, h2, h3, h4⟩ := ih _ _ _ _ _ hr i hi₁
            exact ⟨t₂, h1, h2, h3, List.mem_cons_of_mem n h4⟩
    · simp [resolveNames_cons, hv] at h

/-- Every submitted name resolves, in the resulting table, to a row whose
id is among the resolved ids. -/
theorem resolveNames_covers (u : Nat) (names : List String)
    (l : List NamedEntity) (nid : Nat) (ids : List Nat)
    (l' : List NamedEntity) (nid' : Nat)
    (h : resolveNames u names l nid = .ok (ids, l', nid')) :
    ∀ m ∈ names, ∃ t, findByName l' u m = some t ∧ t.id ∈ ids := by
  induction names generalizing l nid ids l' nid' with
  | nil => intro m hm; cases hm
  | cons n rest ih =>
    by_cases hv : validName n = true
    · cases hf : findByName l u n with
      | some t =>
        cases hr : resolveNames u rest l nid with
        | error e => simp [resolveNames_cons, hv, hf, hr] at h
        | ok res =>
          obtain ⟨ids₁, l₁, nid₁⟩ := res
          simp [resolveNames_cons, hv, hf, hr] at h
          obtain ⟨hids, hl, hnid⟩ := h
          subst hl hnid
          intro m hm
          rcases List.mem_cons.mp hm with rfl | hm'
          · obtain ⟨new, hnew, -, -⟩ := resolveNames_shape u rest l nid ids₁ l₁ nid₁ hr
            refine ⟨t, ?_, ?_⟩
            · rw [hnew]
              exact findByName_append_some l new u m t hf
            · rw [← hids]
              exact (mem_insertIdSet t.id t.id ids₁).mpr (Or.inl rfl)
          · obtain ⟨t₂, hfind, hmem⟩ := ih l nid ids₁ l₁ nid₁ hr m hm'
            refine ⟨t₂, hfind, ?_⟩
            rw [← hids]
            exact (mem_insertIdSet t₂.id t.id ids₁).mpr (Or.inr hmem)
      | none =>
        cases hr : resolveNames u rest (l ++ [⟨nid, u, n⟩]) (nid + 1) with
        | error e => simp [resolveNames_cons, hv, hf, hr] at h
        | ok res =>
          obtain ⟨ids₁, l₁, nid₁⟩ := res
          simp [resolveNames_cons, hv, hf, hr] at h
          obtain ⟨hids, hl, hnid⟩ := h
          subst hl hnid
          intro m hm
          rcases List.mem_cons.mp hm with rfl | hm'
          · obtain ⟨new₁, hnew, -, -⟩ := resolveNames_shape u rest _ _ ids₁ l₁ nid₁ hr
            have hfe : findByName (l ++ [⟨nid, u, m⟩]) u m = some ⟨nid, u, m⟩ := by
              rw [findByName_append_none l _ u m hf]
              exact findByName_singleton nid u m
            refine ⟨⟨nid, u, m⟩, ?_, ?_⟩
            · rw [hnew]
              exact findByName_append_some _ new₁ u m _ hfe
            · rw [← hids]
              exact (mem_insertIdSet nid nid ids₁).mpr (Or.inl rfl)
          · obtain ⟨t₂, hfind, hmem⟩ := ih _ _ _ _ _ hr m hm'
            refine ⟨t₂, hfind, ?_⟩
            rw [← hids]
            exact (mem_insertIdSet t₂.id nid ids₁).mpr (Or.inr hmem)
    · simp [resolveNames_cons, hv] at h

/-- Inserting an element and erasing it change a finite set's cardinality
by exactly one. -/
theorem card_insert_erase {α : Type} [DecidableEq α] (t : Finset α) (n : α) :
    (insert n t).card = (t.erase n).card + 1 := by
  rw [← Finset.card_insert_of_not_mem (Finset.not_mem_erase n t)]
  congr 1
  ext x
  simp only [Finset.mem_insert, Finset.mem_erase]
  tauto

/-- Reconciliation creates exactly one row per distinct submitted name
that misses in the input table (measured through the id generator, which
is bumped once per created row). -/
theorem resolveNames_count (u : Nat) (names : List String)
    (l : List NamedEntity) (nid : Nat) (ids : List Nat)
    (l' : List NamedEntity) (nid' : Nat)
    (h : resolveNames u names l nid = .ok (ids, l', nid')) :
    nid' = nid + ((names.filter (fun m => (findByName l u m).isNone)).toFinset).card := by
  induction names generalizing l nid ids l' nid' with
  | nil =>
    simp [resolveNames] at h
    rcases h with ⟨h1, h2, h3⟩
    simp [← h3]
  | cons n rest ih =>
    by_cases hv : validName n = true
    · cases hf : findByName l u n with
      | some t =>
        cases hr : resolveNames u rest l nid with
        | error e => simp [resolveNames_cons, hv, hf, hr] at h
        | ok res =>
          obtain ⟨ids₁, l₁, nid₁⟩ := res
          simp [resolveNames_cons, hv, hf, hr] at h
          obtain ⟨hids, hl, hnid⟩ := h
          subst hl hnid
          have hP : (findByName l u n).isNone = false := by rw [hf]; rfl
          rw [List.filter_cons]
          simp only [hP, Bool.false_eq_true, if_false]
          exact ih l nid ids₁ l₁ nid₁ hr
      | none =>
        cases hr : resolveNames u rest (l ++ [⟨nid, u, n⟩]) (nid + 1) with
        | error e => simp [resolveNames_cons, hv, hf, hr] at h
        | ok res =>
          obtain ⟨ids₁, l₁, nid₁⟩ := res
          simp [resolveNames_cons, hv, hf, hr] at h
          obtain ⟨hids, hl, hnid⟩ := h
          subst hl hnid
          have hP : (findByName l u n).isNone = true := by rw [hf]; rfl
          have ih' := ih _ _ _ _ _ hr
          have hfilter : rest.filter (fun m => (findByName (l ++ [⟨nid, u, n⟩]) u m).isNone)
              = (rest.filter (fun m => (findByName l u m).isNone)).filter (fun m => !(m == n)) := by
            rw [List.filter_filter]
            apply List.filter_congr
            intro m hm
            rw [findByName_append_singleton_isNone l u nid n m]
            exact Bool.and_comm _ _
          rw [hfilter] at ih'
          have htf : ((rest.filter (fun m => (findByName l u m).isNone)).filter
                (fun m => !(m == n))).toFinset
              = (rest.filter (fun m => (findByName l u m).isNone)).toFinset.erase n := by
            ext x
            simp only [List.mem_toFinset, List.mem_filter, Finset.mem_erase,
                       Bool.not_eq_eq_eq_not, Bool.not_true, beq_eq_false_iff_ne]
            tauto
          rw [htf] at ih'
          rw [List.filter_cons]
          simp only [hP, if_true]
          rw [List.toFinset_cons, card_insert_erase]
          omega
    · simp [resolveNames_cons, hv] at h

/-- The resolved id set has exactly one element per distinct submitted
name, provided the input table is well-formed. -/
theorem resolveNames_ids_length (u : Nat) (names : List String)
    (l : List NamedEntity) (nid : Nat) (ids : List Nat)
    (l' : List NamedEntity) (nid' : Nat) (hwf : EntsWf l nid)
    (h : resolveNames u names l nid = .ok (ids, l', nid')) :
    ids.length = names.toFinset.card := by
  induction names generalizing l nid ids l' nid' with
  | nil =>
    simp [resolveNames] at h
    rcases h with ⟨h1, h2, h3⟩
    simp [h1]
  | cons n rest ih =>
    by_cases hv : validName n = true
    · cases hf : findByName l u n with
      | some t =>
        cases hr : resolveNames u rest l nid with
        | error e => simp [resolveNames_cons, hv, hf, hr] at h
        | ok res =>
          obtain ⟨ids₁, l₁, nid₁⟩ := res
          simp [resolveNames_cons, hv, hf, hr] at h
          obtain ⟨hids, hl, hnid⟩ := h
          have hlen₁ := ih l nid ids₁ l₁ nid₁ hwf hr
          obtain ⟨new, hnew, -, -⟩ := resolveNames_shape u rest l nid ids₁ l₁ nid₁ hr
          have hstable : findByName l₁ u n = some t := by
            rw [hnew]; exact findByName_append_some l new u n t hf
          rw [← hids, List.toFinset_cons]
          by_cases hn : n ∈ rest
          · obtain ⟨t₂, hfind, hmem⟩ := resolveNames_covers u rest l nid ids₁ l₁ nid₁ hr n hn
            have ht2 : t₂ = t := by
              rw [hstable] at hfind
              exact (Option.some.inj hfind).symm
            rw [length_insertIdSet_mem t.id ids₁ (ht2 ▸ hmem), hlen₁,
                Finset.insert_eq_self.mpr (List.mem_toFinset.mpr hn)]
          · have hnotin : t.id ∉ ids₁ := by
              intro hmem
              obtain ⟨t₂, ht₂l, ht₂id, ht₂u, ht₂n⟩ :=
                resolveNames_ids_sub u rest l nid ids₁ l₁ nid₁ hr t.id hmem
              obtain ⟨htl, htu, htn⟩ := findByName_eq_some l u n t hf
              have hwf' := resolveNames_wf u rest l nid ids₁ l₁ nid₁ hwf hr
              have htl' : t ∈ l₁ := by rw [hnew]; exact List.mem_append_left new htl
              have ht2 : t₂ = t :=
                List.inj_on_of_nodup_map hwf'.2 ht₂l htl' ht₂id
              rw [ht2, htn] at ht₂n
              exact hn ht₂n
            rw [length_insertIdSet_not_mem t.id ids₁ hnotin, hlen₁,
                Finset.card_insert_of_not_mem (fun hc => hn (List.mem_toFinset.mp hc))]
      | none =>
        cases hr : resolveNames u rest (l ++ [⟨nid, u, n⟩]) (nid + 1) with
        | error e => simp [resolveNames_cons, hv, hf, hr] at h
        | ok res =>
          obtain ⟨ids₁, l₁, nid₁⟩ := res
          simp [resolveNames_cons, hv, hf, hr] at h
          obtain ⟨hids, hl, hnid⟩ := h
          have hwf1 := entswf_append_fresh l nid u n hwf
          have hlen₁ := ih _ _ _ _ _ hwf1 hr
          obtain ⟨new₁, hnew, -, -⟩ := resolveNames_shape u rest _ _ ids₁ l₁ nid₁ hr
          have hfe : findByName (l ++ [⟨nid, u, n⟩]) u n = some ⟨nid, u, n⟩ := by
            rw [findByName_append_none l _ u n hf]
            exact findByName_singleton nid u n
          have hstable : findByName l₁ u n = some ⟨nid, u, n⟩ := by
            rw [hnew]; exact findByName_append_some _ new₁ u n _ hfe
          rw [← hids, List.toFinset_cons]
          by_cases hn : n ∈ rest
          · obtain ⟨t₂, hfind, hmem⟩ := resolveNames_covers u rest _ _ ids₁ l₁ nid₁ hr n hn
            have ht2 : t₂ = (⟨nid, u, n⟩ : NamedEntity) := by
              rw [hstable] at hfind
              exact (Option.some.inj hfind).symm
            have hmem' : nid ∈ ids₁ := by
              have := ht2 ▸ hmem
              simpa using this
            rw [length_insertIdSet_mem nid ids₁ hmem', hlen₁,
                Finset.insert_eq_self.mpr (List.mem_toFinset.mpr hn)]
          · have hnotin : nid ∉ ids₁ := by
              intro hmem
              obtain ⟨t₂, ht₂l, ht₂id, ht₂u, ht₂n⟩ :=
                resolveNames_ids_sub u rest _ _ ids₁ l₁ nid₁ hr nid hmem
              have hwf' := resolveNames_wf u rest _ _ ids₁ l₁ nid₁ hwf1 hr
              have hel : (⟨nid, u, n⟩ : NamedEntity) ∈ l₁ := by
                rw [hnew]
                exact List.mem_append_left new₁ (List.mem_append_right l (by simp))
              have ht2 : t₂ = (⟨nid, u, n⟩ : NamedEntity) :=
                List.inj_on_of_nodup_map hwf'.2 ht₂l hel ht₂id
              rw [ht2] at ht₂n
              exact hn ht₂n
            rw [length_insertIdSet_not_mem nid ids₁ hnotin, hlen₁,
                Finset.card_insert_of_not_mem (fun hc => hn (List.mem_toFinset.mp hc))]
    · simp [resolveNames_cons, hv] at h

/-- A scoped hit is a recipe of the table owned by the requester with the
requested id. -/
theorem scoped_get_eq_some (s : Store) (u : Nat) (rid : Nat) (r : Recipe)
    (h : scoped_get s u rid = some r) :
    r ∈ s.recipes ∧ r.user = u ∧ r.id = rid := by
  unfold scoped_get at h
  have hm := List.mem_of_find?_eq_some h
  have hp := List.find?_some h
  rw [List.mem_filter] at hm
  refine ⟨hm.1, by simpa using hm.2, by simpa using hp⟩

/-- When no recipe of the table both has the requested id and is owned by
the requester, the scoped lookup misses. -/
theorem scoped_get_eq_none (s : Store) (u : Nat) (rid : Nat)
    (h : ∀ x ∈ s.recipes, x.id = rid → x.user ≠ u) :
    scoped_get s u rid = none := by
  unfold scoped_get
  rw [List.find?_eq_none]
  intro x hx
  rw [List.mem_filter] at hx
  simp only [beq_iff_eq]
  exact fun hid => h x hx.1 hid (by simpa using hx.2)

/-- Appending a recipe whose id is absent from the table makes it the
lookup result for that id. -/
theorem findRecipe_append (l : List Recipe) (r : Recipe) (rid : Nat)
    (hid : r.id = rid) (habs : ∀ x ∈ l, x.id ≠ rid) :
    (l ++ [r]).find? (fun x => x.id == rid) = some r := by
  rw [List.find?_append]
  have h1 : l.find? (fun x => x.id == rid) = none := by
    rw [List.find?_eq_none]
    intro x hx
    simp only [beq_iff_eq]
    exact habs x hx
  rw [h1]
  simp [List.find?, hid]

/-- Replacing, by id, the recipe of a table makes the replacement the
lookup result for that id, as long as some recipe with the id existed. -/
theorem findRecipe_map_replace (l : List Recipe) (rid : Nat) (r' : Recipe)
    (hr' : r'.id = rid) (hex : ∃ r ∈ l, r.id = rid) :
    (l.map (fun x => if x.id == rid then r' else x)).find? (fun x => x.id == rid)
      = some r' := by
  induction l with
  | nil => obtain ⟨r, hr, _⟩ := hex; cases hr
  | cons x xs ih =>
    by_cases hx : x.id = rid
    · have hbx : (x.id == rid) = true := beq_iff_eq.mpr hx
      simp only [List.map_cons, hbx, if_true, List.find?]
      rw [show (r'.id == rid) = true from beq_iff_eq.mpr hr']
    · have hbx : (x.id == rid) = false := by simp [hx]
      simp only [List.map_cons, hbx, if_false, List.find?, Bool.false_eq_true]
      apply ih
      obtain ⟨r, hrm, hrid⟩ := hex
      rcases List.mem_cons.mp hrm with rfl | hm
      · exact absurd hrid hx
      · exact ⟨r, hm, hrid⟩

/-- Inversion of a successful Recipe Service create. -/
theorem createRecipeOp_inv (u : Nat) (f : RecipeFields) (s : Store)
    (rid : Nat) (s' : Store) (h : createRecipeOp u f s = .ok (rid, s')) :
    validRecipeFields f = true ∧
    ∃ tids tags' nid1 iids ings' nid2,
      resolveNames u (f.tags.getD []) s.tags s.nextId = .ok (tids, tags', nid1) ∧
      resolveNames u (f.ingredients.getD []) s.ingredients nid1 = .ok (iids, ings', nid2) ∧
      rid = nid2 ∧
      s' = { recipes := s.recipes ++
               [Recipe.mk nid2 u f.title f.time_minutes f.price f.description f.link tids iids],
             tags := tags', ingredients := ings', nextId := nid2 + 1 } := by
  unfold createRecipeOp at h
  by_cases hval : validRecipeFields f = true
  · rw [if_pos hval] at h
    refine ⟨hval, ?_⟩
    cases h1 : resolveNames u (f.tags.getD []) s.tags s.nextId with
    | error e => rw [h1] at h; cases h
    | ok res1 =>
      obtain ⟨tids, tags', nid1⟩ := res1
      rw [h1] at h
      cases h2 : resolveNames u (f.ingredients.getD []) s.ingredients nid1 with
      | error e => simp only [h2] at h; cases h
      | ok res2 =>
        obtain ⟨iids, ings', nid2⟩ := res2
        simp only [h2] at h
        have hinj := Except.ok.inj h
        exact ⟨tids, tags', nid1, iids, ings', nid2, rfl, h2,
               (congrArg Prod.fst hinj).symm, (congrArg Prod.snd hinj).symm⟩
  · rw [if_neg hval] at h
    cases h

/-- Inversion of a successful Recipe Service update. -/
theorem updateRecipeOp_inv (u : Nat) (rid : Nat) (p : UpdatePayload)
    (s s' : Store) (h : updateRecipeOp u rid p s = .ok s') :
    ∃ r tids tags' nid1 iids ings' nid2,
      scoped_get s u rid = some r ∧
      (match p.tags with
       | none => Except.ok (r.tags, s.tags, s.nextId)
       | some names => resolveNames u names s.tags s.nextId) = .ok (tids, tags', nid1) ∧
      (match p.ingredients with
       | none => Except.ok (r.ingredients, s.ingredients, nid1)
       | some names => resolveNames u names s.ingredients nid1) = .ok (iids, ings', nid2) ∧
      s' = { recipes := s.recipes.map (fun x => if x.id == rid then
               { applyFields r p with tags := tids, ingredients := iids } else x),
             tags := tags', ingredients := ings', nextId := nid2 } := by
  unfold updateRecipeOp at h
  cases hget : scoped_get s u rid with
  | none => rw [hget] at h; cases h
  | some r =>
    rw [hget] at h
    cases h1 : (match p.tags with
                | none => Except.ok (r.tags, s.tags, s.nextId)
                | some names => resolveNames u names s.tags s.nextId) with
    | error e => simp only [h1] at h; cases h
    | ok res1 =>
      obtain ⟨tids, tags', nid1⟩ := res1
      simp only [h1] at h
      cases h2 : (match p.ingredients with
                  | none => Except.ok (r.ingredients, s.ingredients, nid1)
                  | some names => resolveNames u names s.ingredients nid1) with
      | error e => simp only [h2] at h; cases h
      | ok res2 =>
        obtain ⟨iids, ings', nid2⟩ := res2
        simp only [h2] at h
        exact ⟨r, tids, tags', nid1, iids, ings', nid2, rfl, h1, h2,
               (Except.ok.inj h).symm⟩

/-- C8: for every user, the list operation returns exactly the entities
owned by that user, in a deterministic order — recipes most-recently
created first (descending id, as `order_by(-id)`), tags and ingredients in
reverse-lexicographic order by name (as `order_by(-name)`). -/
theorem scoped_list_exact_and_ordered (s : Store) (u : Nat) (l : List NamedEntity) :
    ((scoped_list_recipes s u).Perm (s.recipes.filter (fun r => r.user == u)) ∧
     (∀ r, r ∈ scoped_list_recipes s u ↔ r ∈ s.recipes ∧ r.user = u) ∧
     (scoped_list_recipes s u).Pairwise (fun a b => b.id ≤ a.id)) ∧
    ((scoped_list_ents l u).Perm (l.filter (fun t => t.user == u)) ∧
     (∀ t, t ∈ scoped_list_ents l u ↔ t ∈ l ∧ t.user = u) ∧
     (scoped_list_ents l u).Pairwise (fun a b => b.name ≤ a.name)) := by
  refine ⟨⟨List.mergeSort_perm _ _, ?_, ?_⟩, List.mergeSort_perm _ _, ?_, ?_⟩
  · intro r
    rw [scoped_list_recipes, List.mem_mergeSort, List.mem_filter]
    simp
  · have htrans : ∀ a b c : Recipe, Nat.ble b.id a.id = true →
        Nat.ble c.id b.id = true → Nat.ble c.id a.id = true := by
      intro a b c h1 h2
      rw [Nat.ble_eq] at h1 h2 ⊢
      omega
    have htotal : ∀ a b : Recipe, (Nat.ble b.id a.id || Nat.ble a.id b.id) = true := by
      intro a b
      rw [Bool.or_eq_true, Nat.ble_eq, Nat.ble_eq]
      omega
    have h := List.sorted_mergeSort htrans htotal (s.recipes.filter (fun r => r.user == u))
    exact h.imp (fun hab => by rwa [Nat.ble_eq] at hab)
  · intro t
    rw [scoped_list_ents, List.mem_mergeSort, List.mem_filter]
    simp
  · have htrans : ∀ a b c : NamedEntity, decide (b.name ≤ a.name) = true →
        decide (c.name ≤ b.name) = true → decide (c.name ≤ a.name) = true := by
      intro a b c h1 h2
      rw [decide_eq_true_eq] at h1 h2 ⊢
      exact le_trans h2 h1
    have htotal : ∀ a b : NamedEntity,
        (decide (b.name ≤ a.name) || decide (a.name ≤ b.name)) = true := by
      intro a b
      rw [Bool.or_eq_true, decide_eq_true_eq, decide_eq_true_eq]
      exact (le_total b.name a.name)
    have h := List.sorted_mergeSort htrans htotal (l.filter (fun t => t.user == u))
    exact h.imp (fun hab => by rwa [decide_eq_true_eq] at hab)

/-- C9: a request without a valid credential is answered 401 Unauthorized
on every endpoint — before any handler or ownership check runs — and the
store is left exactly as it was. -/
theorem unauthenticated_rejected_no_mutation (req : Request) (s : Store) :
    handle none req s = (.unauthorized401, s) := rfl

/-- C10: the tag and ingredient viewsets support list, create, update
(PUT and PATCH) and destroy, but no single-entity retrieve — the retrieve
capability is absent from the mixin composition — while the recipe
viewset does support retrieve. -/
theorem attr_viewsets_lack_retrieve :
    (ViewAction.retrieveAction ∉ TagViewSet.actions ∧
     ViewAction.retrieveAction ∉ IngredientViewSet.actions) ∧
    (ViewAction.listAction ∈ TagViewSet.actions ∧
     ViewAction.createAction ∈ TagViewSet.actions ∧
     ViewAction.updateAction ∈ TagViewSet.actions ∧
     ViewAction.patchAction ∈ TagViewSet.actions ∧
     ViewAction.destroyAction ∈ TagViewSet.actions) ∧
    (ViewAction.listAction ∈ IngredientViewSet.actions ∧
     ViewAction.createAction ∈ IngredientViewSet.actions ∧
     ViewAction.updateAction ∈ IngredientViewSet.actions ∧
     ViewAction.patchAction ∈ IngredientViewSet.actions ∧
     ViewAction.destroyAction ∈ IngredientViewSet.actions) ∧
    ViewAction.retrieveAction ∈ RecipeViewSet.actions := by
  decide

/-- C4: for users U1 ≠ U2 and a recipe owned by U1, a get, patch, put or
delete issued by U2 against that recipe's id answers 404 — identical to
the response for a nonexistent id — the store (including the recipe and
its owner) is unchanged, and the recipe never appears in U2's list. -/
theorem foreign_recipe_not_found (s : Store) (u1 u2 : Nat) (r : Recipe)
    (hwf : s.Wf) (hmem : r ∈ s.recipes) (hown : r.user = u1) (hne : u1 ≠ u2) :
    handle (some u2) (.getRecipe r.id) s = (.notFound404, s) ∧
    (∀ p, handle (some u2) (.patchRecipe r.id p) s = (.notFound404, s)) ∧
    (∀ p, handle (some u2) (.putRecipe r.id p) s = (.notFound404, s)) ∧
    handle (some u2) (.delRecipe r.id) s = (.notFound404, s) ∧
    r ∉ scoped_list_recipes s u2 ∧
    (∀ rid, (∀ x ∈ s.recipes, x.id ≠ rid) →
      handle (some u2) (.getRecipe rid) s = (.notFound404, s) ∧
      (∀ p, handle (some u2) (.patchRecipe rid p) s = (.notFound404, s)) ∧
      handle (some u2) (.delRecipe rid) s = (.notFound404, s)) := by
  have hnone : scoped_get s u2 r.id = none := by
    apply scoped_get_eq_none
    intro x hx hid
    have hx_eq : x = r := List.inj_on_of_nodup_map hwf.2.1 hx hmem hid
    rw [hx_eq, hown]
    exact fun h => hne h
  refine ⟨?_, ?_, ?_, ?_, ?_, ?_⟩
  · simp [handle, hnone]
  · intro p
    simp [handle, updateRecipeOp, hnone, ApiError.status]
  · intro p
    simp [handle, updateRecipeOp, hnone, ApiError.status]
  · simp [handle, deleteRecipeOp, hnone, ApiError.status]
  · rw [scoped_list_recipes, List.mem_mergeSort, List.mem_filter]
    intro hc
    have : r.user = u2 := by simpa using hc.2
    exact hne (hown ▸ this)
  · intro rid habs
    have hnone2 : scoped_get s u2 rid = none := by
      apply scoped_get_eq_none
      intro x hx hid
      exact absurd hid (habs x hx)
    refine ⟨?_, ?_, ?_⟩
    · simp [handle, hnone2]
    · intro p
      simp [handle, updateRecipeOp, hnone2, ApiError.status]
    · simp [handle, deleteRecipeOp, hnone2, ApiError.status]

/-- The id allocated by a successful create is beyond every recipe id
already in a well-formed store. -/
theorem createRecipeOp_fresh_id (u : Nat) (f : RecipeFields) (s : Store)
    (rid : Nat) (s' : Store) (hwf : s.Wf)
    (h : createRecipeOp u f s = .ok (rid, s')) :
    ∀ x ∈ s.recipes, x.id ≠ rid := by
  obtain ⟨-, tids, tags', nid1, iids, ings', nid2, h1, h2, hrid, -⟩ :=
    createRecipeOp_inv u f s rid s' h
  obtain ⟨new1, -, hcnt1, -⟩ := resolveNames_shape u _ _ _ _ _ _ h1
  obtain ⟨new2, -, hcnt2, -⟩ := resolveNames_shape u _ _ _ _ _ _ h2
  intro x hx
  have hlt := hwf.1 x hx
  omega

/-- C5: a recipe's owner is the authenticated user who created it — any
owner value in the create payload is overridden — and no update payload
(including one carrying a `user` field) ever changes any recipe's stored
owner. -/
theorem owner_immutable (s : Store) (hwf : s.Wf) :
    (∀ u f rid s', createRecipeOp u f s = .ok (rid, s') →
       ∃ r', findRecipe s' rid = some r' ∧ r'.user = u) ∧
    (∀ u rid p s', updateRecipeOp u rid p s = .ok s' →
       s'.recipes.map (fun x => (x.id, x.user)) =
         s.recipes.map (fun x => (x.id, x.user))) := by
  constructor
  · intro u f rid s' h
    have hfresh := createRecipeOp_fresh_id u f s rid s' hwf h
    obtain ⟨-, tids, tags', nid1, iids, ings', nid2, h1, h2, hrid, hs⟩ :=
      createRecipeOp_inv u f s rid s' h
    refine ⟨Recipe.mk nid2 u f.title f.time_minutes f.price f.description f.link tids iids,
            ?_, rfl⟩
    rw [hs]
    unfold findRecipe
    simp only
    subst hrid
    exact findRecipe_append s.recipes _ rid rfl hfresh
  · intro u rid p s' h
    obtain ⟨r, tids, tags', nid1, iids, ings', nid2, hget, h1, h2, hs⟩ :=
      updateRecipeOp_inv u rid p s s' h
    obtain ⟨hrmem, hruser, hrid⟩ := scoped_get_eq_some s u rid r hget
    rw [hs]
    simp only [List.map_map]
    apply List.map_congr_left
    intro x hx
    by_cases hxid : x.id = rid
    · have hx_eq : x = r := List.inj_on_of_nodup_map hwf.2.1 hx hrmem (hxid.trans hrid.symm)
      simp only [Function.comp_apply, beq_iff_eq, hxid, if_true]
      rw [hx_eq]
      rw [← hrid]
      rfl
    · simp only [Function.comp_apply, beq_iff_eq, hxid, if_false]

/-- C7: an update applies exactly the fields present in the payload; every
omitted field — scalar fields as well as the tag and ingredient
association sets when their keys are absent — keeps its prior value, and
recipes other than the targeted one are untouched. -/
theorem update_only_present_fields (u : Nat) (rid : Nat) (p : UpdatePayload)
    (s s' : Store) (r : Recipe) (hget : scoped_get s u rid = some r)
    (hok : updateRecipeOp u rid p s = .ok s') :
    ∃ r', findRecipe s' rid = some r' ∧
      (∀ v, p.title = some v → r'.title = v) ∧
      (p.title = none → r'.title = r.title) ∧
      (p.time_minutes = none → r'.time_minutes = r.time_minutes) ∧
      (p.price = none → r'.price = r.price) ∧
      (p.description = none → r'.description = r.description) ∧
      (p.link = none → r'.link = r.link) ∧
      (p.tags = none → r'.tags = r.tags ∧ s'.tags = s.tags) ∧
      (p.ingredients = none → r'.ingredients = r.ingredients ∧
        s'.ingredients = s.ingredients) ∧
      (∀ x ∈ s.recipes, x.id ≠ rid → x ∈ s'.recipes) := by
  obtain ⟨r₀, tids, tags', nid1, iids, ings', nid2, hget₀, h1, h2, hs⟩ :=
    updateRecipeOp_inv u rid p s s' hok
  have hr₀ : r₀ = r := by
    rw [hget₀] at hget
    exact Option.some.inj hget
  subst hr₀
  obtain ⟨hrmem, hruser, hrid⟩ := scoped_get_eq_some s u rid r₀ hget₀
  refine ⟨{ applyFields r₀ p with tags := tids, ingredients := iids }, ?_, ?_, ?_,
          ?_, ?_, ?_, ?_, ?_, ?_, ?_⟩
  · rw [hs]
    unfold findRecipe
    exact findRecipe_map_replace s.recipes rid _ hrid ⟨r₀, hrmem, hrid⟩
  · intro v hv
    simp [applyFields, hv]
  · intro hv
    simp [applyFields, hv]
  · intro hv
    simp [applyFields, hv]
  · intro hv
    simp [applyFields, hv]
  · intro hv
    simp [applyFields, hv]
  · intro hv
    simp [applyFields, hv]
  · intro hv
    rw [hv] at h1
    have := Except.ok.inj h1
    refine ⟨(congrArg (fun x => x.1) this).symm, ?_⟩
    rw [hs]
    exact (congrArg (fun x => x.2.1) this).symm
  · intro hv
    rw [hv] at h2
    have := Except.ok.inj h2
    refine ⟨(congrArg (fun x => x.1) this).symm, ?_⟩
    rw [hs]
    exact (congrArg (fun x => x.2.1) this).symm
  · intro x hx hxid
    rw [hs]
    simp only [Store.mk.injEq]
    refine List.mem_map.mpr ⟨x, hx, ?_⟩
    simp [hxid]

/-- The same-owner invariant of §3: every tag and ingredient associated
with a recipe is owned by the recipe's owner. -/
abbrev SameOwnerInv (s : Store) : Prop :=
  ∀ r ∈ s.recipes,
    (∀ i ∈ r.tags, ∃ t, t ∈ s.tags ∧ t.id = i ∧ t.user = r.user) ∧
    (∀ i ∈ r.ingredients, ∃ t, t ∈ s.ingredients ∧ t.id = i ∧ t.user = r.user)

/-- C3: create and update preserve the same-owner invariant — every
associated tag/ingredient of every recipe is owned by the recipe's owner;
reconciliation never attaches another user's entity, even when that user
owns an entity with the same name. -/
theorem associations_same_owner (s : Store) (hinv : SameOwnerInv s) :
    (∀ u f rid s', createRecipeOp u f s = .ok (rid, s') → SameOwnerInv s') ∧
    (∀ u rid p s', updateRecipeOp u rid p s = .ok s' → SameOwnerInv s') := by
  constructor
  · intro u f rid s' h
    obtain ⟨-, tids, tags', nid1, iids, ings', nid2, h1, h2, hrid, hs⟩ :=
      createRecipeOp_inv u f s rid s' h
    obtain ⟨new1, hnew1, -, -⟩ := resolveNames_shape u _ _ _ _ _ _ h1
    obtain ⟨new2, hnew2, -, -⟩ := resolveNames_shape u _ _ _ _ _ _ h2
    intro r₀ hr₀
    rw [hs] at hr₀
    simp only at hr₀
    rw [hs]
    simp only
    rcases List.mem_append.mp hr₀ with hold | hnewr
    · obtain ⟨htag, hing⟩ := hinv r₀ hold
      constructor
      · intro i hi
        obtain ⟨t, htm, hti, htu⟩ := htag i hi
        exact ⟨t, by rw [hnew1]; exact List.mem_append_left new1 htm, hti, htu⟩
      · intro i hi
        obtain ⟨t, htm, hti, htu⟩ := hing i hi
        exact ⟨t, by rw [hnew2]; exact List.mem_append_left new2 htm, hti, htu⟩
    · have hr₀eq : r₀ = Recipe.mk nid2 u f.title f.time_minutes f.price
          f.description f.link tids iids := by simpa using hnewr
      subst hr₀eq
      constructor
      · intro i hi
        obtain ⟨t, htm, hti, htu, -⟩ := resolveNames_ids_sub u _ _ _ _ _ _ h1 i hi
        exact ⟨t, htm, hti, htu⟩
      · intro i hi
        obtain ⟨t, htm, hti, htu, -⟩ := resolveNames_ids_sub u _ _ _ _ _ _ h2 i hi
        exact ⟨t, htm, hti, htu⟩
  · intro u rid p s' h
    obtain ⟨r, tids, tags', nid1, iids, ings', nid2, hget, h1, h2, hs⟩ :=
      updateRecipeOp_inv u rid p s s' h
    obtain ⟨hrmem, hruser, hrid⟩ := scoped_get_eq_some s u rid r hget
    have htags_ext : ∃ nt, tags' = s.tags ++ nt := by
      cases hp : p.tags with
      | none =>
        simp only [hp] at h1
        simp only [Except.ok.injEq, Prod.mk.injEq] at h1
        exact ⟨[], by rw [← h1.2.1]; simp⟩
      | some names =>
        simp only [hp] at h1
        obtain ⟨nt, hnt, -, -⟩ := resolveNames_shape u _ _ _ _ _ _ h1
        exact ⟨nt, hnt⟩
    have hings_ext : ∃ ni, ings' = s.ingredients ++ ni := by
      cases hp : p.ingredients with
      | none =>
        simp only [hp] at h2
        simp only [Except.ok.injEq, Prod.mk.injEq] at h2
        exact ⟨[], by rw [← h2.2.1]; simp⟩
      | some names =>
        simp only [hp] at h2
        obtain ⟨ni, hni, -, -⟩ := resolveNames_shape u _ _ _ _ _ _ h2
        exact ⟨ni, hni⟩
    obtain ⟨nt, hnt⟩ := htags_ext
    obtain ⟨ni, hni⟩ := hings_ext
    intro r₀ hr₀
    rw [hs] at hr₀
    simp only at hr₀
    rw [hs]
    simp only
    obtain ⟨x, hx, hrepl⟩ := List.mem_map.mp hr₀
    by_cases hxid : x.id = rid
    · rw [if_pos (beq_iff_eq.mpr hxid)] at hrepl
      subst hrepl
      constructor
      · intro i hi
        simp only at hi
        cases hp : p.tags with
        | none =>
          simp only [hp] at h1
          simp only [Except.ok.injEq, Prod.mk.injEq] at h1
          rw [← h1.1] at hi
          obtain ⟨t, htm, hti, htu⟩ := (hinv r hrmem).1 i hi
          refine ⟨t, by rw [hnt]; exact List.mem_append_left nt htm, hti, ?_⟩
          rw [htu]
          rfl
        | some names =>
          simp only [hp] at h1
          obtain ⟨t, htm, hti, htu, -⟩ := resolveNames_ids_sub u _ _ _ _ _ _ h1 i hi
          refine ⟨t, htm, hti, ?_⟩
          rw [htu]
          show u = (applyFields r p).user
          rw [show (applyFields r p).user = r.user from rfl, hruser]
      · intro i hi
        simp only at hi
        cases hp : p.ingredients with
        | none =>
          simp only [hp] at h2
          simp only [Except.ok.injEq, Prod.mk.injEq] at h2
          rw [← h2.1] at hi
          obtain ⟨t, htm, hti, htu⟩ := (hinv r hrmem).2 i hi
          refine ⟨t, by rw [hni]; exact List.mem_append_left ni htm, hti, ?_⟩
          rw [htu]
          rfl
        | some names =>
          simp only [hp] at h2
          obtain ⟨t, htm, hti, htu, -⟩ := resolveNames_ids_sub u _ _ _ _ _ _ h2 i hi
          refine ⟨t, htm, hti, ?_⟩
          rw [htu]
          show u = (applyFields r p).user
          rw [show (applyFields r p).user = r.user from rfl, hruser]
    · rw [if_neg (by simpa using hxid)] at hrepl
      subst hrepl
      obtain ⟨htag, hing⟩ := hinv x hx
      constructor
      · intro i hi
        obtain ⟨t, htm, hti, htu⟩ := htag i hi
        exact ⟨t, by rw [hnt]; exact List.mem_append_left nt htm, hti, htu⟩
      · intro i hi
        obtain ⟨t, htm, hti, htu⟩ := hing i hi
        exact ⟨t, by rw [hni]; exact List.mem_append_left ni htm, hti, htu⟩

/-- C1: creating a recipe with a list of tag names is find-or-create per
name: a name already owned by the user (exact, case-sensitive match) is
reused and adds no row, every other name adds exactly one new row owned by
the user (one per distinct missing name), and the recipe ends with exactly
one association per distinct submitted name. -/
theorem create_find_or_create_per_name (u : Nat) (f : RecipeFields) (s : Store)
    (names : List String) (hwf : s.Wf)
    (htags : f.tags = some names) (hing : f.ingredients = none)
    (hv : validRecipeFields f = true)
    (hval : ∀ n ∈ names, validName n = true) :
    ∃ rid s' r', createRecipeOp u f s = .ok (rid, s') ∧
      findRecipe s' rid = some r' ∧
      (∃ new, s'.tags = s.tags ++ new ∧
        (∀ t ∈ new, t.user = u ∧ t.name ∈ names ∧ findByName s.tags u t.name = none) ∧
        new.length =
          ((names.filter (fun m => (findByName s.tags u m).isNone)).toFinset).card) ∧
      r'.tags.Nodup ∧
      r'.tags.length = names.toFinset.card ∧
      (∀ n ∈ names, ∃ t, findByName s'.tags u n = some t ∧ t.id ∈ r'.tags) ∧
      (∀ i ∈ r'.tags, ∃ t, t ∈ s'.tags ∧ t.id = i ∧ t.user = u ∧ t.name ∈ names) ∧
      ((∀ n ∈ names, findByName s.tags u n ≠ none) → s'.tags = s.tags) := by
  obtain ⟨tids, tags', nid1, hres⟩ :=
    resolveNames_ok_of_valid u names s.tags s.nextId hval
  have hcreate : createRecipeOp u f s =
      .ok (nid1, Store.mk
        (s.recipes ++
          [Recipe.mk nid1 u f.title f.time_minutes f.price f.description f.link tids []])
        tags' s.ingredients (nid1 + 1)) := by
    unfold createRecipeOp
    rw [if_pos hv, htags, hing]
    simp only [Option.getD_some, Option.getD_none, hres]
    rfl
  obtain ⟨new, hnew, hcnt, hprop⟩ := resolveNames_shape u _ _ _ _ _ _ hres
  have hcount := resolveNames_count u _ _ _ _ _ _ hres
  refine ⟨nid1, _,
    Recipe.mk nid1 u f.title f.time_minutes f.price f.description f.link tids [],
    hcreate, ?_, ?_, ?_, ?_, ?_, ?_, ?_⟩
  · unfold findRecipe
    simp only
    apply findRecipe_append
    · rfl
    · intro x hx
      have := hwf.1 x hx
      omega
  · exact ⟨new, hnew, fun t ht => ⟨(hprop t ht).1, (hprop t ht).2.1, (hprop t ht).2.2.1⟩,
           by omega⟩
  · exact resolveNames_ids_nodup u _ _ _ _ _ _ hres
  · exact resolveNames_ids_length u _ _ _ _ _ _ hwf.2.2.1 hres
  · exact resolveNames_covers u _ _ _ _ _ _ hres
  · exact resolveNames_ids_sub u _ _ _ _ _ _ hres
  · intro hall
    have hfilter : names.filter (fun m => (findByName s.tags u m).isNone) = [] := by
      rw [List.filter_eq_nil_iff]
      intro n hn
      simp only [Option.isNone_iff_eq_none]
      exact hall n hn
    rw [hfilter] at hcount
    simp at hcount
    have hlen : new.length = 0 := by omega
    rw [List.length_eq_zero] at hlen
    simp only
    rw [hnew, hlen, List.append_nil]

/-- C2: an update that supplies a tags list replaces the association set
wholesale with exactly the set resolved from the submitted list: every
remaining association names a submitted name, every submitted name is
associated, a previously linked tag whose name is absent from the list is
unlinked, and an empty list leaves zero associations while the tag table
itself keeps every row it had. -/
theorem update_replaces_association_set (u : Nat) (rid : Nat) (p : UpdatePayload)
    (s : Store) (r : Recipe) (names : List String)
    (hwf : s.Wf) (hget : scoped_get s u rid = some r)
    (htags : p.tags = some names) (hing : p.ingredients = none)
    (hval : ∀ n ∈ names, validName n = true) :
    ∃ s' r', updateRecipeOp u rid p s = .ok s' ∧ findRecipe s' rid = some r' ∧
      (∀ i ∈ r'.tags, ∃ t, t ∈ s'.tags ∧ t.id = i ∧ t.user = u ∧ t.name ∈ names) ∧
      (∀ n ∈ names, ∃ t, findByName s'.tags u n = some t ∧ t.id ∈ r'.tags) ∧
      (∀ i ∈ r.tags, (∀ t ∈ s.tags, t.id = i → t.name ∉ names) → i ∉ r'.tags) ∧
      (∃ new, s'.tags = s.tags ++ new) ∧
      (names = [] → r'.tags = [] ∧ s'.tags = s.tags) := by
  obtain ⟨hrmem, hruser, hrid⟩ := scoped_get_eq_some s u rid r hget
  obtain ⟨tids, tags', nid1, hres⟩ :=
    resolveNames_ok_of_valid u names s.tags s.nextId hval
  have hupd : updateRecipeOp u rid p s = .ok (Store.mk
      (s.recipes.map (fun x => if x.id == rid then
        { applyFields r p with tags := tids, ingredients := r.ingredients } else x))
      tags' s.ingredients nid1) := by
    unfold updateRecipeOp
    rw [hget, htags, hing]
    simp only [hres]
  obtain ⟨new, hnew, hcnt, hprop⟩ := resolveNames_shape u _ _ _ _ _ _ hres
  refine ⟨_, { applyFields r p with tags := tids, ingredients := r.ingredients },
          hupd, ?_, ?_, ?_, ?_, ?_, ?_⟩
  · unfold findRecipe
    simp only
    exact findRecipe_map_replace s.recipes rid _ hrid ⟨r, hrmem, hrid⟩
  · intro i hi
    simp only at hi
    exact resolveNames_ids_sub u _ _ _ _ _ _ hres i hi
  · intro n hn
    exact resolveNames_covers u _ _ _ _ _ _ hres n hn
  · intro i hi hnolink hi'
    simp only at hi'
    obtain ⟨t, htm, hti, htu, htn⟩ := resolveNames_ids_sub u _ _ _ _ _ _ hres i hi'
    have hilt : i < s.nextId := (hwf.2.2.2.2 r hrmem).1 i hi
    rw [hnew] at htm
    rcases List.mem_append.mp htm with hold | hnewt
    · exact hnolink t hold hti htn
    · have := (hprop t hnewt).2.2.2.1
      omega
  · exact ⟨new, hnew⟩
  · intro hnil
    subst hnil
    simp only [resolveNames, Except.ok.injEq, Prod.mk.injEq] at hres
    obtain ⟨h1, h2, h3⟩ := hres
    exact ⟨h1.symm, h2.symm⟩

/-- C6: if any submitted tag/ingredient name is empty or over-long, the
whole create call — and the whole update call on a recipe the user owns —
answers 400 ValidationError and the store is returned exactly as it was:
no recipe change, no new tag/ingredient row, no association row survives
the failed call. -/
theorem atomic_on_validation_failure (u : Nat) (s : Store) :
    (∀ f, (∃ n ∈ (f.tags.getD []) ++ (f.ingredients.getD []), validName n = false) →
       handle (some u) (.postRecipe f) s = (.badRequest400, s)) ∧
    (∀ rid p r, scoped_get s u rid = some r →
       (∃ n ∈ (p.tags.getD []) ++ (p.ingredients.getD []), validName n = false) →
       handle (some u) (.patchRecipe rid p) s = (.badRequest400, s)) := by
  constructor
  · intro f hbad
    have hcreate : createRecipeOp u f s = .error .validationError := by
      unfold createRecipeOp
      by_cases hv : validRecipeFields f = true
      · rw [if_pos hv]
        obtain ⟨n, hn, hnv⟩ := hbad
        rcases List.mem_append.mp hn with ht | hi
        · simp only [resolveNames_invalid u (f.tags.getD []) s.tags s.nextId ⟨n, ht, hnv⟩]
        · cases h1 : resolveNames u (f.tags.getD []) s.tags s.nextId with
          | error e =>
            simp only [h1, resolveNames_error_eq u (f.tags.getD []) s.tags s.nextId e h1]
          | ok res =>
            obtain ⟨tids, tags', nid1⟩ := res
            simp only [h1,
              resolveNames_invalid u (f.ingredients.getD []) s.ingredients nid1 ⟨n, hi, hnv⟩]
      · rw [if_neg hv]
    simp [handle, hcreate, ApiError.status]
  · intro rid p r hget hbad
    have hupd : updateRecipeOp u rid p s = .error .validationError := by
      unfold updateRecipeOp
      rw [hget]
      obtain ⟨n, hn, hnv⟩ := hbad
      rcases List.mem_append.mp hn with ht | hi
      · cases hp : p.tags with
        | none =>
          rw [hp] at ht
          simp at ht
        | some names =>
          rw [hp] at ht
          simp only [Option.getD_some] at ht
          simp only [hp, resolveNames_invalid u names s.tags s.nextId ⟨n, ht, hnv⟩]
      · cases hp : p.ingredients with
        | none =>
          rw [hp] at hi
          simp at hi
        | some names =>
          rw [hp] at hi
          simp only [Option.getD_some] at hi
          cases hpt : p.tags with
          | none =>
            simp only [hpt,
              resolveNames_invalid u names s.ingredients s.nextId ⟨n, hi, hnv⟩]
          | some names2 =>
            simp only [hpt]
            cases h1 : resolveNames u names2 s.tags s.nextId with
            | error e =>
              simp only [h1, resolveNames_error_eq u names2 s.tags s.nextId e h1]
            | ok res =>
              obtain ⟨tids, tags', nid1⟩ := res
              simp only [h1,
                resolveNames_invalid u names s.ingredients nid1 ⟨n, hi, hnv⟩]
    simp [handle, hupd, ApiError.status]

/-- Concrete tag used to instantiate the theorems. -/
def wTag : NamedEntity := ⟨0, 1, "breakfast"⟩

/-- Concrete recipe (owned by user 1, linked to `wTag`). -/
def wRecipe : Recipe :=
  ⟨1, 1, "Sample recipe", 10, 5, "Sample description",
   "https://example.com/recipe.pdf", [0], []⟩

/-- Concrete store holding `wRecipe` and `wTag`. -/
def wStore : Store := ⟨[wRecipe], [wTag], [], 2⟩

/-- Concrete create payload with two new tag names. -/
def wFields : RecipeFields :=
  ⟨"Avocado lime cheesecake", 60, 20, "", "", none,
   some ["vegan", "dessert"], none⟩

/-- Concrete patch payload replacing the tag list. -/
def wPatchTags : UpdatePayload :=
  ⟨none, none, none, none, none, none, some ["lunch"], none⟩

/-- Concrete patch payload supplying only a title. -/
def wPatchTitle : UpdatePayload :=
  ⟨some "butter chicken", none, none, none, none, none, none, none⟩

/-- The store `wStore` after patching the recipe's title. -/
def wStoreTitled : Store :=
  ⟨[⟨1, 1, "butter chicken", 10, 5, "Sample description",
     "https://example.com/recipe.pdf", [0], []⟩], [wTag], [], 2⟩

/-- Witness instantiating the find-or-create theorem at a concrete store
and payload. -/
theorem create_find_or_create_per_name_witness :
    (Store.Wf wStore ∧ wFields.tags = some ["vegan", "dessert"] ∧
     wFields.ingredients = none ∧ validRecipeFields wFields = true ∧
     (∀ n ∈ ["vegan", "dessert"], validName n = true)) ∧
    (∃ rid s' r', createRecipeOp 1 wFields wStore = .ok (rid, s') ∧
      findRecipe s' rid = some r' ∧
      (∃ new, s'.tags = wStore.tags ++ new ∧
        (∀ t ∈ new, t.user = 1 ∧ t.name ∈ ["vegan", "dessert"] ∧
          findByName wStore.tags 1 t.name = none) ∧
        new.length = ((["vegan", "dessert"].filter
          (fun m => (findByName wStore.tags 1 m).isNone)).toFinset).card) ∧
      r'.tags.Nodup ∧
      r'.tags.length = (["vegan", "dessert"] : List String).toFinset.card ∧
      (∀ n ∈ ["vegan", "dessert"],
        ∃ t, findByName s'.tags 1 n = some t ∧ t.id ∈ r'.tags) ∧
      (∀ i ∈ r'.tags,
        ∃ t, t ∈ s'.tags ∧ t.id = i ∧ t.user = 1 ∧ t.name ∈ ["vegan", "dessert"]) ∧
      ((∀ n ∈ ["vegan", "dessert"], findByName wStore.tags 1 n ≠ none) →
        s'.tags = wStore.tags)) :=
  ⟨⟨by decide, rfl, rfl, by decide, by decide⟩,
   create_find_or_create_per_name 1 wFields wStore ["vegan", "dessert"]
     (by decide) rfl rfl (by decide) (by decide)⟩

/-- Witness instantiating the association-replacement theorem at a
concrete store and payload. -/
theorem update_replaces_association_set_witness :
    (Store.Wf wStore ∧ scoped_get wStore 1 1 = some wRecipe ∧
     wPatchTags.tags = some ["lunch"] ∧ wPatchTags.ingredients = none ∧
     (∀ n ∈ ["lunch"], validName n = true)) ∧
    (∃ s' r', updateRecipeOp 1 1 wPatchTags wStore = .ok s' ∧
      findRecipe s' 1 = some r' ∧
      (∀ i ∈ r'.tags, ∃ t, t ∈ s'.tags ∧ t.id = i ∧ t.user = 1 ∧ t.name ∈ ["lunch"]) ∧
      (∀ n ∈ ["lunch"], ∃ t, findByName s'.tags 1 n = some t ∧ t.id ∈ r'.tags) ∧
      (∀ i ∈ wRecipe.tags,
        (∀ t ∈ wStore.tags, t.id = i → t.name ∉ ["lunch"]) → i ∉ r'.tags) ∧
      (∃ new, s'.tags = wStore.tags ++ new) ∧
      ((["lunch"] : List String) = [] → r'.tags = [] ∧ s'.tags = wStore.tags)) :=
  ⟨⟨by decide, by decide, rfl, rfl, by decide⟩,
   update_replaces_association_set 1 1 wPatchTags wStore wRecipe ["lunch"]
     (by decide) (by decide) rfl rfl (by decide)⟩

/-- Witness instantiating the same-owner preservation theorem at a
concrete store. -/
theorem associations_same_owner_witness :
    SameOwnerInv wStore ∧
    ((∀ u f rid s', createRecipeOp u f wStore = .ok (rid, s') → SameOwnerInv s') ∧
     (∀ u rid p s', updateRecipeOp u rid p wStore = .ok s' → SameOwnerInv s')) :=
  ⟨by decide, associations_same_owner wStore (by decide)⟩

/-- Witness instantiating the foreign-ownership 404 theorem at a concrete
store and a second user. -/
theorem foreign_recipe_not_found_witness :
    (Store.Wf wStore ∧ wRecipe ∈ wStore.recipes ∧ wRecipe.user = 1 ∧
     (1 : Nat) ≠ 2) ∧
    (handle (some 2) (.getRecipe wRecipe.id) wStore = (.notFound404, wStore) ∧
     (∀ p, handle (some 2) (.patchRecipe wRecipe.id p) wStore = (.notFound404, wStore)) ∧
     (∀ p, handle (some 2) (.putRecipe wRecipe.id p) wStore = (.notFound404, wStore)) ∧
     handle (some 2) (.delRecipe wRecipe.id) wStore = (.notFound404, wStore) ∧
     wRecipe ∉ scoped_list_recipes wStore 2 ∧
     (∀ rid, (∀ x ∈ wStore.recipes, x.id ≠ rid) →
       handle (some 2) (.getRecipe rid) wStore = (.notFound404, wStore) ∧
       (∀ p, handle (some 2) (.patchRecipe rid p) wStore = (.notFound404, wStore)) ∧
       handle (some 2) (.delRecipe rid) wStore = (.notFound404, wStore))) :=
  ⟨⟨by decide, by decide, rfl, by decide⟩,
   foreign_recipe_not_found wStore 1 2 wRecipe (by decide) (by decide) rfl (by decide)⟩

/-- Witness instantiating the owner-immutability theorem at a concrete
store. -/
theorem owner_immutable_witness :
    Store.Wf wStore ∧
    ((∀ u f rid s', createRecipeOp u f wStore = .ok (rid, s') →
        ∃ r', findRecipe s' rid = some r' ∧ r'.user = u) ∧
     (∀ u rid p s', updateRecipeOp u rid p wStore = .ok s' →
        s'.recipes.map (fun x => (x.id, x.user)) =
          wStore.recipes.map (fun x => (x.id, x.user)))) :=
  ⟨by decide, owner_immutable wStore (by decide)⟩

/-- Witness instantiating the partial-update frame theorem at a concrete
title-only patch. -/
theorem update_only_present_fields_witness :
    (scoped_get wStore 1 1 = some wRecipe ∧
     updateRecipeOp 1 1 wPatchTitle wStore = .ok wStoreTitled) ∧
    (∃ r', findRecipe wStoreTitled 1 = some r' ∧
      (∀ v, wPatchTitle.title = some v → r'.title = v) ∧
      (wPatchTitle.title = none → r'.title = wRecipe.title) ∧
      (wPatchTitle.time_minutes = none → r'.time_minutes = wRecipe.time_minutes) ∧
      (wPatchTitle.price = none → r'.price = wRecipe.price) ∧
      (wPatchTitle.description = none → r'.description = wRecipe.description) ∧
      (wPatchTitle.link = none → r'.link = wRecipe.link) ∧
      (wPatchTitle.tags = none → r'.tags = wRecipe.tags ∧
        wStoreTitled.tags = wStore.tags) ∧
      (wPatchTitle.ingredients = none → r'.ingredients = wRecipe.ingredients ∧
        wStoreTitled.ingredients = wStore.ingredients) ∧
      (∀ x ∈ wStore.recipes, x.id ≠ 1 → x ∈ wStoreTitled.recipes)) :=
  ⟨⟨rfl, rfl⟩,
   update_only_present_fields 1 1 wPatchTitle wStore wStoreTitled wRecipe rfl rfl⟩
